import Mathlib

/-!
Shallow embedding of the wikilink resolution, rewriting and backlink
machinery of the PiNotes Lite frontend
(`src/frontend/src/utils/wikilinks.js`, the App component, the
DisambiguationModal and LinkedMentions components).

Strings are modelled as `List Char`; JS objects used as string-keyed maps
are modelled as association lists in insertion order.  Functions defined by
non-structural recursion over the scanned text are written with an explicit
fuel argument (initialised to the text length) so that every definition
evaluates by kernel reduction.
-/

namespace PiNotes

/-- Strings are modelled as lists of characters. -/
abbrev Str := List Char

/-- JS `String.prototype.trim` whitespace test (the ASCII whitespace
characters plus NBSP; further Unicode space classes do not occur in the
vault texts the claims exercise). -/
def isJsSpace (c : Char) : Bool :=
  c = ' ' || c = '\t' || c = '\n' || c = '\r' || c = Char.ofNat 11 || c = Char.ofNat 12 ||
    c = Char.ofNat 160

/-- JS `s.trim()`: strip leading and trailing whitespace. -/
def trimChars (s : Str) : Str :=
  ((s.dropWhile isJsSpace).reverse.dropWhile isJsSpace).reverse

/-- The filename index: the JS object mapping a bare filename to the array
of vault paths carrying that filename (`data.index` fetched from
`/api/notes/index`), modelled as an association list in insertion order. -/
abbrev NoteIndex := List (Str × List Str)

/-- JS `noteIndex[targetName] || []`: bucket lookup; an absent key yields the
empty list. -/
def lookupBucket (index : NoteIndex) (key : Str) : List Str :=
  match index.find? (fun e => e.1 == key) with
  | some e => e.2
  | none => []

/-- The three-way resolver verdict, from the `matches.length === 0 / === 1
/ otherwise` branching shared by `preprocessWikilinks`
(wikilinks.js), `rewriteWikilinks` (App) and the `Wikilink` component. -/
inductive ResolutionVerdict where
  | Resolved : Str → ResolutionVerdict
  | Ambiguous : List Str → ResolutionVerdict
  | Missing : ResolutionVerdict
deriving DecidableEq

/-- Resolve a wikilink target against the filename index: trim the target,
look up its bucket, classify by bucket size. -/
def resolve (target : Str) (index : NoteIndex) : ResolutionVerdict :=
  match lookupBucket index (trimChars target) with
  | [] => ResolutionVerdict.Missing
  | [p] => ResolutionVerdict.Resolved p
  | ps => ResolutionVerdict.Ambiguous ps

/-- The `DisambiguationModal` component: `useState(matches[0])` — the initially selected
path of the modal is the first entry of the ambiguous match list
(`none` can only arise from an empty list, which the modal is never
handed). -/
def initialSelected (ms : List Str) : Option Str :=
  ms.head?

/-- A character allowed inside the wikilink target: the regex class
`[^\]|]`. -/
def isTargetChar (c : Char) : Bool :=
  !(c = ']') && !(c = '|')

/-- A character allowed inside the wikilink alias: the regex class
`[^\]]`. -/
def isAliasChar (c : Char) : Bool :=
  !(c = ']')

/-- Attempt to match the wikilink regex
`\[\[([^\]|]+)(?:\|([^\]]+))?\]\]` at the head of the text.  On success
returns the captured target, the optional captured alias and the text
remaining after the match.  The greedy character classes are maximal runs
(`takeWhile`); as analysed from the pattern, backtracking can never turn a
failed maximal-run attempt into a success, so this deterministic scan is
exactly the regex engine's behaviour. -/
def tryMatch (s : Str) : Option (Str × Option Str × Str) :=
  match s with
  | c1 :: c2 :: rest =>
    if c1 = '[' ∧ c2 = '[' then
      let tgt := rest.takeWhile isTargetChar
      match rest.dropWhile isTargetChar with
      | d1 :: d2 :: rem1 =>
        if tgt = [] then none
        else if d1 = ']' ∧ d2 = ']' then some (tgt, none, rem1)
        else if d1 = '|' then
          let al := (d2 :: rem1).takeWhile isAliasChar
          match (d2 :: rem1).dropWhile isAliasChar with
          | e1 :: e2 :: rem2 =>
            if al = [] then none
            else if e1 = ']' ∧ e2 = ']' then some (tgt, some al, rem2)
            else none
          | _ => none
        else none
      | _ => none
    else none
  | _ => none

/-- One pass of JS `body.replace(wikilinkRegex, repl)`, fuelled: scan left
to right; at each position try the regex; on a match emit the replacement
and continue after the match, otherwise copy one character. -/
def replaceTokensFuel (repl : Str → Option Str → Str) : Nat → Str → Str
  | 0, l => l
  | _ + 1, [] => []
  | n + 1, c :: rest =>
    match tryMatch (c :: rest) with
    | some (t, a, rem) => repl t a ++ replaceTokensFuel repl n rem
    | none => c :: replaceTokensFuel repl n rest

/-- JS `body.replace(/\[\[([^\]|]+)(?:\|([^\]]+))?\]\]/g, repl)`. -/
def replaceTokens (repl : Str → Option Str → Str) (l : Str) : Str :=
  replaceTokensFuel repl l.length l

/-- JS single-character global replace `s.replace(/c/g, rep)`. -/
def replaceChar (c : Char) (rep : Str) (s : Str) : Str :=
  s.flatMap (fun x => if x = c then rep else [x])

/-- The `escapeHtml` helper of the App component: chained global replaces of `&`,
`<`, `>` and `"`.  (The chained form equals this order of single-character
passes: the entities introduced by the first pass contain none of the
later-replaced characters.) -/
def escapeHtml (s : Str) : Str :=
  replaceChar '"' ("&quot;".data)
    (replaceChar '>' ("&gt;".data)
      (replaceChar '<' ("&lt;".data)
        (replaceChar '&' ("&amp;".data) s)))

/-- JS `s.split(sep)` for a one-character separator. -/
def splitOnChar (sep : Char) : Str → List Str
  | [] => [[]]
  | c :: rest =>
    match splitOnChar sep rest with
    | [] => [[]]
    | s :: ss => if c = sep then [] :: s :: ss else (c :: s) :: ss

/-- JS `arr.join(sep)` for a one-character separator. -/
def joinChar (sep : Char) : List Str → Str
  | [] => []
  | [x] => x
  | x :: y :: xs => x ++ sep :: joinChar sep (y :: xs)

/-- Uppercase hexadecimal digit, as produced by JS percent-encoding. -/
def hexDigit (n : Nat) : Char :=
  if n < 10 then Char.ofNat (48 + n) else Char.ofNat (55 + n)

/-- Percent-encode one byte as `%XX`. -/
def percentByte (b : Nat) : Str :=
  ['%', hexDigit (b / 16), hexDigit (b % 16)]

/-- UTF-8 encoding of one character as its byte values. -/
def utf8Bytes (c : Char) : List Nat :=
  let n := c.toNat
  if n < 128 then [n]
  else if n < 2048 then [192 + n / 64, 128 + n % 64]
  else if n < 65536 then [224 + n / 4096, 128 + (n / 64) % 64, 128 + n % 64]
  else [240 + n / 262144, 128 + (n / 4096) % 64, 128 + (n / 64) % 64, 128 + n % 64]

/-- The characters JS `encodeURIComponent` leaves unescaped:
`A-Z a-z 0-9 - _ . ! ~ * ' ( )`. -/
def isUnreservedURI (c : Char) : Bool :=
  ('A' ≤ c && c ≤ 'Z') || ('a' ≤ c && c ≤ 'z') || ('0' ≤ c && c ≤ '9') ||
    c = '-' || c = '_' || c = '.' || c = '!' || c = '~' || c = '*' ||
    c = Char.ofNat 39 || c = '(' || c = ')'

/-- JS `encodeURIComponent`: unreserved characters pass through, all
others are percent-encoded byte-by-byte in UTF-8. -/
def encodeURIComponent (s : Str) : Str :=
  s.flatMap (fun c => if isUnreservedURI c then [c] else (utf8Bytes c).flatMap percentByte)

/-- The `encodePathSegments` helper of the App component: split the path on `/`,
percent-encode every segment, rejoin with `/`. -/
def encodePathSegments (p : Str) : Str :=
  joinChar '/' ((splitOnChar '/' p).map encodeURIComponent)

/-- The replacement callback of `rewriteWikilinks` (App component): pick
the display text (`(alias || target).trim()`), trim the target, look up
its bucket, and emit missing-span / markdown link / ambiguous-span
markup according to the number of matches. -/
def wikilinkRepl (index : NoteIndex) (target : Str) (al : Option Str) : Str :=
  let display := trimChars (al.getD target)
  let targetName := trimChars target
  let bucket := lookupBucket index targetName
  match bucket with
  | [] =>
    ("<span class=\"wikilink-missing\">".data) ++ escapeHtml display ++ ("</span>".data)
  | [p] =>
    ("[".data) ++ display ++ ("](/notes/".data) ++ encodePathSegments p ++ (")".data)
  | ps =>
    ("<span class=\"wikilink ambiguous\" data-target=\"".data) ++ escapeHtml targetName ++
      ("\" data-paths=\"".data) ++ joinChar ',' (ps.map encodePathSegments) ++
      ("\">".data) ++ escapeHtml display ++ ("</span>".data)

/-- JS `rewriteWikilinks(body, noteIndex)`: replace every wikilink token of
the body using the resolver-driven replacement callback. -/
def rewriteWikilinks (body : Str) (index : NoteIndex) : Str :=
  replaceTokens (wikilinkRepl index) body

/-- The exact character sequence of a well-formed wikilink token:
`[[target]]` or `[[target|alias]]`. -/
def tokenChars (t : Str) (a : Option Str) : Str :=
  '[' :: '[' :: (t ++ (match a with | none => [] | some al => '|' :: al) ++ [']', ']'])

/-- Well-formedness of token components per the regex grammar: a non-empty
target free of `]` and `|`, and, when present, a non-empty alias free of
`]`. -/
def wfToken (t : Str) (a : Option Str) : Prop :=
  t ≠ [] ∧ (∀ c ∈ t, isTargetChar c = true) ∧
    match a with
    | none => True
    | some al => al ≠ [] ∧ ∀ c ∈ al, isAliasChar c = true

/-- The body contains a recognizable wikilink token somewhere. -/
def containsToken (body : Str) : Prop :=
  ∃ pre t a post, wfToken t a ∧ body = pre ++ tokenChars t a ++ post

/-- Decidable scan for a wikilink token: some suffix of the body matches
the token regex. -/
def hasToken (body : Str) : Bool :=
  body.tails.any (fun s => (tryMatch s).isSome)

/-- The span click handler of `createMarkdownComponents`:
`pathsStr ? pathsStr.split(',') : []`. -/
def handlerPaths (s : Str) : List Str :=
  if s = [] then [] else splitOnChar ',' s

/-- One piece of a rewrite decomposition of a body: either a stretch of
literal text, or the span of a recognized wikilink token with its
captures. -/
inductive Chunk where
  | lit : Str → Chunk
  | tok : Str → Option Str → Chunk

/-- The source text a chunk covers: literal text itself, or the exact
character span of the token. -/
def chunkText : Chunk → Str
  | Chunk.lit s => s
  | Chunk.tok t a => tokenChars t a

/-- The text a chunk contributes to the rewrite output: literal text is
untouched byte-for-byte; only a token span is replaced. -/
def chunkOut (repl : Str → Option Str → Str) : Chunk → Str
  | Chunk.lit s => s
  | Chunk.tok t a => repl t a

/-- Well-formedness of a chunk: a token chunk carries captures admitted
by the token grammar. -/
def chunkWf : Chunk → Prop
  | Chunk.lit _ => True
  | Chunk.tok t a => wfToken t a

/-- The segment-resolution loop of `normalizeRelativePath`: empty and `.`
segments are skipped, `..` pops the stack when it is non-empty and is
otherwise discarded, and any other segment is pushed. -/
def resolveParts (stack : List Str) : List Str → List Str
  | [] => stack
  | part :: rest =>
    if part = [] ∨ part = ['.'] then resolveParts stack rest
    else if part = ['.', '.'] then resolveParts stack.dropLast rest
    else resolveParts (stack ++ [part]) rest

/-- The resolved segment stack of `normalizeRelativePath`: the base
directory's non-empty segments (`baseDir ? baseDir.split('/').filter(Boolean)
: []`) extended by the relative path's segments. -/
def normSegments (baseDir relativePath : Str) : List Str :=
  let baseParts := if baseDir = [] then [] else (splitOnChar '/' baseDir).filter (fun s => s ≠ [])
  resolveParts baseParts (splitOnChar '/' relativePath)

/-- JS `normalizeRelativePath(baseDir, relativePath)` of the App component:
`stack.join('/')` over the resolved segments. -/
def normalizeRelativePath (baseDir relativePath : Str) : Str :=
  joinChar '/' (normSegments baseDir relativePath)

/-- One vault file as handed to the core: path and raw body. -/
structure NoteRecord where
  path : Str
  body : Str

/-- One discovered backlink record `{path, title, snippet}` as served by
the backlink query surface. -/
structure Backlink where
  path : Str
  title : Str
  snippet : Str

/-- Fuelled scan of all wikilink tokens of a body with their span data:
start offset, matched length, target, optional alias.  Reuses the token
regex `tryMatch`. -/
def scanTokensFuel : Nat → Nat → Str → List (Nat × Nat × Str × Option Str)
  | 0, _, _ => []
  | _ + 1, _, [] => []
  | n + 1, pos, c :: rest =>
    match tryMatch (c :: rest) with
    | some (t, a, rem) =>
      (pos, (c :: rest).length - rem.length, t, a) ::
        scanTokensFuel n (pos + ((c :: rest).length - rem.length)) rem
    | none => scanTokensFuel n (pos + 1) rest

/-- All wikilink tokens of a body, in textual order, with span data. -/
def scanTokens (body : Str) : List (Nat × Nat × Str × Option Str) :=
  scanTokensFuel body.length 0 body

/-- Modelled from the spec: the backlink scanner derives `sourceTitle`
externally (a collaborator concern); this model derives it from the
note's filename, the final path segment with a trailing `.md` stripped. -/
def noteTitle (path : Str) : Str :=
  let base := (splitOnChar '/' path).getLastD []
  if 3 ≤ base.length ∧ base.drop (base.length - 3) = (".md".data) then
    base.take (base.length - 3)
  else base

/-- Modelled from the spec: the snippet is "a bounded window of characters
centered on the token's span" with a hard cap; this model takes up to 80
characters of context on each side of the span. -/
def snippetAround (body : Str) (start len : Nat) : Str :=
  (body.drop (start - 80)).take (len + 160)

/-- Modelled from the spec: the backend backlink scanner behind
`GET /api/notes/backlinks` (consumed by `LinkedMentions`) is not part of
the frontend sources.  Per spec §4.3 it parses every note body with the
§4.2 token grammar and, for each token whose trimmed target equals the
query under the case-sensitive exact matching rule, records a Backlink
with the note's path, an externally derived title and a bounded snippet;
it never consults the filename index. -/
def findBacklinks (q : Str) (notes : List NoteRecord) : List Backlink :=
  notes.flatMap (fun n =>
    (scanTokens n.body).filterMap (fun tok =>
      if trimChars tok.2.2.1 = q then
        some { path := n.path, title := noteTitle n.path
               snippet := snippetAround n.body tok.1 tok.2.1 }
      else none))

/-! ### Scanner lemmas -/

/-- The `takeWhile`/`dropWhile` pair on a satisfying run followed by a failing
head: the run is taken whole and the tail is left whole. -/
theorem run_take_drop {p : Char → Bool} {t : Str} {l : Str}
    (ht : ∀ c ∈ t, p c = true) (hl : ∀ d rest, l = d :: rest → p d = false) :
    (t ++ l).takeWhile p = t ∧ (t ++ l).dropWhile p = l := by
  induction t with
  | nil =>
    cases l with
    | nil => simp
    | cons d rest =>
      have hd := hl d rest rfl
      constructor
      · simp [List.takeWhile_cons, hd]
      · simp [List.dropWhile_cons, hd]
  | cons c t ih =>
    have hc : p c = true := ht c (by simp)
    have ih' := ih (fun c hc' => ht c (by simp [hc']))
    constructor
    · simpa [List.takeWhile_cons_of_pos hc] using ih'.1
    · simpa [List.dropWhile_cons_of_pos hc] using ih'.2

/-- A well-formed token followed by arbitrary text is matched by the token
regex exactly, leaving the trailing text. -/
theorem tryMatch_token (t : Str) (a : Option Str) (rem : Str) (h : wfToken t a) :
    tryMatch (tokenChars t a ++ rem) = some (t, a, rem) := by
  obtain ⟨hne, htgt, hal⟩ := h
  cases a with
  | none =>
    have hrun := run_take_drop (p := isTargetChar) (t := t) (l := ']' :: ']' :: rem)
      htgt (by rintro d rest ⟨rfl, rfl⟩; rfl)
    simp only [tokenChars, List.cons_append, List.append_assoc, List.nil_append]
    simp [tryMatch, hrun.1, hrun.2, hne]
  | some al =>
    obtain ⟨halne, halc⟩ := hal
    have hrun := run_take_drop (p := isTargetChar) (t := t)
      (l := '|' :: (al ++ ']' :: ']' :: rem)) htgt (by rintro d rest ⟨rfl, rfl⟩; rfl)
    have hrun2 := run_take_drop (p := isAliasChar) (t := al) (l := ']' :: ']' :: rem)
      halc (by rintro d rest ⟨rfl, rfl⟩; rfl)
    obtain ⟨a0, al', rfl⟩ : ∃ a0 al', al = a0 :: al' := by
      cases al with
      | nil => exact absurd rfl halne
      | cons a0 al' => exact ⟨a0, al', rfl⟩
    simp only [tokenChars, List.cons_append, List.append_assoc, List.nil_append]
    simp only [List.cons_append] at hrun hrun2
    simp [tryMatch, hrun.1, hrun.2, hrun2.1, hrun2.2, hne]

/-- A successful regex match decomposes the text as the exact token
character sequence followed by the remainder, with well-formed captures. -/
theorem tryMatch_some {s t : Str} {a : Option Str} {rem : Str}
    (h : tryMatch s = some (t, a, rem)) :
    s = tokenChars t a ++ rem ∧ wfToken t a := by
  match s with
  | [] => simp [tryMatch] at h
  | [c1] => simp [tryMatch] at h
  | c1 :: c2 :: rest =>
    rw [tryMatch] at h
    have hsplit := List.takeWhile_append_dropWhile (p := isTargetChar) (l := rest)
    by_cases hb : c1 = '[' ∧ c2 = '['
    · obtain ⟨rfl, rfl⟩ := hb
      rw [if_pos ⟨rfl, rfl⟩] at h
      rcases hdw : rest.dropWhile isTargetChar with _ | ⟨d1, _ | ⟨d2, rem1⟩⟩ <;>
          rw [hdw] at h hsplit <;> simp only [] at h
      · simp at h
      · simp at h
      · by_cases hemp : rest.takeWhile isTargetChar = []
        · simp [hemp] at h
        · rw [if_neg hemp] at h
          by_cases hdd : d1 = ']' ∧ d2 = ']'
          · obtain ⟨rfl, rfl⟩ := hdd
            rw [if_pos ⟨rfl, rfl⟩] at h
            obtain ⟨rfl, rfl, rfl⟩ : rest.takeWhile isTargetChar = t ∧ none = a ∧ rem1 = rem := by
              simpa using h
            refine ⟨?_, hemp, fun c hc => List.mem_takeWhile_imp hc, trivial⟩
            simp only [tokenChars, List.cons_append, List.nil_append, List.append_assoc,
              List.cons.injEq, true_and]
            exact hsplit.symm
          · rw [if_neg hdd] at h
            by_cases hd1 : d1 = '|'
            · subst hd1
              rw [if_pos rfl] at h
              have hsplit2 := List.takeWhile_append_dropWhile (p := isAliasChar) (l := d2 :: rem1)
              rcases hdw2 : (d2 :: rem1).dropWhile isAliasChar with _ | ⟨e1, _ | ⟨e2, rem2⟩⟩ <;>
                  rw [hdw2] at h hsplit2 <;> simp only [] at h
              · simp at h
              · simp at h
              · by_cases hemp2 : (d2 :: rem1).takeWhile isAliasChar = []
                · simp [hemp2] at h
                · rw [if_neg hemp2] at h
                  by_cases hee : e1 = ']' ∧ e2 = ']'
                  · obtain ⟨rfl, rfl⟩ := hee
                    rw [if_pos ⟨rfl, rfl⟩] at h
                    obtain ⟨rfl, rfl, rfl⟩ :
                        rest.takeWhile isTargetChar = t ∧
                          some ((d2 :: rem1).takeWhile isAliasChar) = a ∧ rem2 = rem := by
                      simpa using h
                    refine ⟨?_, hemp, fun c hc => List.mem_takeWhile_imp hc, ?_⟩
                    · simp only [tokenChars, List.cons_append, List.nil_append,
                        List.append_assoc, List.cons.injEq, true_and]
                      rw [hsplit2]
                      exact hsplit.symm
                    · exact ⟨hemp2, fun c hc => List.mem_takeWhile_imp hc⟩
                  · rw [if_neg hee] at h
                    simp at h
            · rw [if_neg hd1] at h
              simp at h
    · rw [if_neg hb] at h
      simp at h

/-- The remainder after a successful match is strictly shorter than the
matched text. -/
theorem tryMatch_rem_lt {s t : Str} {a : Option Str} {rem : Str}
    (h : tryMatch s = some (t, a, rem)) : rem.length < s.length := by
  obtain ⟨rfl, hne, -⟩ := tryMatch_some h
  have : t.length ≠ 0 := by simpa using hne
  simp [tokenChars]
  omega

/-- Fuel-successor equation of the scan: a regex match at the head. -/
theorem replaceTokensFuel_succ_match {repl : Str → Option Str → Str} {n : Nat} {c : Char}
    {rest t : Str} {a : Option Str} {rem : Str} (h : tryMatch (c :: rest) = some (t, a, rem)) :
    replaceTokensFuel repl (n + 1) (c :: rest) = repl t a ++ replaceTokensFuel repl n rem := by
  simp [replaceTokensFuel, h]

/-- Fuel-successor equation of the scan: no match at the head. -/
theorem replaceTokensFuel_succ_none {repl : Str → Option Str → Str} {n : Nat} {c : Char}
    {rest : Str} (h : tryMatch (c :: rest) = none) :
    replaceTokensFuel repl (n + 1) (c :: rest) = c :: replaceTokensFuel repl n rest := by
  simp [replaceTokensFuel, h]

/-- Fuel irrelevance for the replacement scan: any fuel at least the text
length computes the same result. -/
theorem replaceTokensFuel_congr (repl : Str → Option Str → Str) :
    ∀ n m (l : Str), l.length ≤ n → l.length ≤ m →
      replaceTokensFuel repl n l = replaceTokensFuel repl m l := by
  intro n
  induction n with
  | zero =>
    intro m l hn _
    have : l = [] := by
      cases l with
      | nil => rfl
      | cons c rest => simp at hn
    subst this
    cases m <;> rfl
  | succ n ih =>
    intro m l hn hm
    cases l with
    | nil => cases m <;> rfl
    | cons c rest =>
      obtain ⟨m', rfl⟩ : ∃ m', m = m' + 1 := by
        cases m with
        | zero => simp at hm
        | succ m' => exact ⟨m', rfl⟩
      simp only [List.length_cons] at hn hm
      cases htm : tryMatch (c :: rest) with
      | some x =>
        obtain ⟨t, a, rem⟩ := x
        have hlt := tryMatch_rem_lt htm
        simp only [List.length_cons] at hlt
        rw [replaceTokensFuel_succ_match htm, replaceTokensFuel_succ_match htm,
          ih m' rem (by omega) (by omega)]
      | none =>
        rw [replaceTokensFuel_succ_none htm, replaceTokensFuel_succ_none htm,
          ih m' rest (by omega) (by omega)]

/-- Scan equation: a regex match at the head is replaced and scanning
continues after it. -/
theorem replaceTokens_match {repl : Str → Option Str → Str} {c : Char} {rest t : Str}
    {a : Option Str} {rem : Str} (h : tryMatch (c :: rest) = some (t, a, rem)) :
    replaceTokens repl (c :: rest) = repl t a ++ replaceTokens repl rem := by
  have hlt := tryMatch_rem_lt h
  simp only [List.length_cons] at hlt
  unfold replaceTokens
  simp only [List.length_cons]
  rw [replaceTokensFuel_succ_match h,
    replaceTokensFuel_congr repl rest.length rem.length rem (by omega) (by omega)]

/-- Scan equation: with no match at the head, one character is copied. -/
theorem replaceTokens_no_match {repl : Str → Option Str → Str} {c : Char} {rest : Str}
    (h : tryMatch (c :: rest) = none) :
    replaceTokens repl (c :: rest) = c :: replaceTokens repl rest := by
  unfold replaceTokens
  simp only [List.length_cons]
  rw [replaceTokensFuel_succ_none h]

/-- The regex can only start matching at a `[`. -/
theorem tryMatch_not_open {c : Char} {l : Str} (h : c ≠ '[') : tryMatch (c :: l) = none := by
  cases l with
  | nil => rfl
  | cons d rest => simp [tryMatch, h]

/-- Text on which the regex matches at no position is returned unchanged
by the replacement scan. -/
theorem replaceTokens_id {repl : Str → Option Str → Str} {body : Str}
    (h : ∀ s, s <:+ body → tryMatch s = none) : replaceTokens repl body = body := by
  induction body with
  | nil => rfl
  | cons c rest ih =>
    rw [replaceTokens_no_match (h _ List.suffix_rfl),
      ih (fun s hs => h s (hs.trans (List.suffix_cons c rest)))]

/-- A prefix containing no `[` is copied verbatim by the replacement
scan. -/
theorem replaceTokens_append_no_open {repl : Str → Option Str → Str} {pre body : Str}
    (h : ∀ c ∈ pre, c ≠ '[') :
    replaceTokens repl (pre ++ body) = pre ++ replaceTokens repl body := by
  induction pre with
  | nil => simp
  | cons c pre ih =>
    rw [List.cons_append, replaceTokens_no_match (tryMatch_not_open (h c (by simp))),
      ih (fun c hc => h c (by simp [hc])), List.cons_append]

/-- If the body contains no well-formed token then the regex matches at no
position. -/
theorem no_suffix_match {body : Str} (h : ¬ containsToken body) :
    ∀ s, s <:+ body → tryMatch s = none := by
  intro s hs
  cases htm : tryMatch s with
  | none => rfl
  | some x =>
    obtain ⟨t, a, rem⟩ := x
    obtain ⟨hse, hwf⟩ := tryMatch_some htm
    obtain ⟨u, hu⟩ := hs
    exact absurd ⟨u, t, a, rem, hwf, by rw [← hu, hse, List.append_assoc]⟩ h

/-- Every text decomposes into literal segments and recognized token
spans such that the replacement scan copies the literal segments
byte-for-byte and replaces exactly the token spans. -/
theorem replaceTokens_chunks (repl : Str → Option Str → Str) :
    ∀ (n : Nat) (body : Str), body.length ≤ n →
      ∃ chunks : List Chunk,
        (∀ ch ∈ chunks, chunkWf ch)
        ∧ body = (chunks.map chunkText).flatten
        ∧ replaceTokens repl body = (chunks.map (chunkOut repl)).flatten := by
  intro n
  induction n with
  | zero =>
    intro body hn
    have hb : body = [] := by
      cases body with
      | nil => rfl
      | cons c r => simp at hn
    subst hb
    exact ⟨[], by simp, by simp, by simp [replaceTokens, replaceTokensFuel]⟩
  | succ n ih =>
    intro body hn
    cases body with
    | nil => exact ⟨[], by simp, by simp, by simp [replaceTokens, replaceTokensFuel]⟩
    | cons c rest =>
      simp only [List.length_cons] at hn
      cases htm : tryMatch (c :: rest) with
      | some x =>
        obtain ⟨t, a, rem⟩ := x
        have hlt := tryMatch_rem_lt htm
        simp only [List.length_cons] at hlt
        obtain ⟨hse, hwf⟩ := tryMatch_some htm
        obtain ⟨chs, hchwf, hflat, hout⟩ := ih rem (by omega)
        refine ⟨Chunk.tok t a :: chs, ?_, ?_, ?_⟩
        · intro ch hch
          rcases List.mem_cons.1 hch with rfl | hch
          · exact hwf
          · exact hchwf ch hch
        · rw [hse, List.map_cons, List.flatten_cons, ← hflat]
          rfl
        · rw [replaceTokens_match htm, hout, List.map_cons, List.flatten_cons]
          rfl
      | none =>
        obtain ⟨chs, hchwf, hflat, hout⟩ := ih rest (by omega)
        refine ⟨Chunk.lit [c] :: chs, ?_, ?_, ?_⟩
        · intro ch hch
          rcases List.mem_cons.1 hch with rfl | hch
          · exact trivial
          · exact hchwf ch hch
        · rw [List.map_cons, List.flatten_cons, ← hflat]
          rfl
        · rw [replaceTokens_no_match htm, hout, List.map_cons, List.flatten_cons]
          rfl

/-- The decidable token scan is sound for the absence of tokens. -/
theorem not_containsToken_of_hasToken {body : Str} (h : hasToken body = false) :
    ¬ containsToken body := by
  rintro ⟨pre, t, a, post, hwf, rfl⟩
  have hsuf : (tokenChars t a ++ post) <:+ pre ++ tokenChars t a ++ post :=
    ⟨pre, by rw [List.append_assoc]⟩
  have hmem : (tokenChars t a ++ post) ∈ (pre ++ tokenChars t a ++ post).tails :=
    (List.mem_tails _ _).2 hsuf
  have hall := List.any_eq_false.1 h _ hmem
  rw [tryMatch_token t a post hwf] at hall
  simp at hall

/-! ### Resolver lemmas -/

/-- Bucket lookup finds the first entry carrying the key. -/
theorem lookupBucket_append {pre : NoteIndex} {k : Str} {b : List Str} {post : NoteIndex}
    (hpre : ∀ e ∈ pre, e.1 ≠ k) : lookupBucket (pre ++ (k, b) :: post) k = b := by
  induction pre with
  | nil => simp [lookupBucket]
  | cons e pre ih =>
    have hne : ¬ (e.1 == k) = true := by
      simp only [beq_iff_eq]
      exact hpre e (by simp)
    rw [List.cons_append]
    unfold lookupBucket
    rw [List.find?_cons_of_neg (p := fun x : Str × List Str => x.1 == k) _ hne]
    exact ih (fun e he => hpre e (by simp [he]))

/-- On a key carried by no entry, bucket lookup yields the empty list. -/
theorem lookupBucket_eq_nil {index : NoteIndex} {k : Str}
    (h : ∀ e ∈ index, e.1 ≠ k) : lookupBucket index k = [] := by
  unfold lookupBucket
  rw [List.find?_eq_none.2 (fun e he => by simpa using h e he)]

/-! ### Claims on resolution -/

/-- C1: For every wikilink token and every filename index, resolution
classifies the token purely by the size of the bucket found under the
trimmed target: an empty bucket yields Missing, a singleton yields
Resolved carrying that single path, two or more yield Ambiguous carrying
all matched paths; in particular a target whose first index entry under
the trimmed target holds exactly one path resolves to that path. -/
theorem resolve_classifies_by_bucket_size (index : NoteIndex) (target : Str) :
    (lookupBucket index (trimChars target) = [] →
      resolve target index = ResolutionVerdict.Missing)
    ∧ (∀ p, lookupBucket index (trimChars target) = [p] →
      resolve target index = ResolutionVerdict.Resolved p)
    ∧ (∀ ps, lookupBucket index (trimChars target) = ps → 2 ≤ ps.length →
      resolve target index = ResolutionVerdict.Ambiguous ps)
    ∧ (∀ pre post p, index = pre ++ (trimChars target, [p]) :: post →
      (∀ e ∈ pre, e.1 ≠ trimChars target) →
      resolve target index = ResolutionVerdict.Resolved p) := by
  refine ⟨?_, ?_, ?_, ?_⟩
  · intro h
    unfold resolve
    rw [h]
  · intro p h
    unfold resolve
    rw [h]
  · intro ps h h2
    unfold resolve
    rw [h]
    match ps, h2 with
    | p1 :: p2 :: rest, _ => rfl
  · intro pre post p heq hpre
    unfold resolve
    rw [heq, lookupBucket_append hpre]

/-- Witness for C1 at Scenario A: the index maps "Note Name" to the single
path "02-projects/Note Name.md", and resolving "Note Name" yields
Resolved with that path. -/
theorem resolve_classifies_by_bucket_size_witness :
    resolve ("Note Name".data) [(("Note Name".data), [("02-projects/Note Name.md".data)])] =
      ResolutionVerdict.Resolved ("02-projects/Note Name.md".data) :=
  (resolve_classifies_by_bucket_size
      [(("Note Name".data), [("02-projects/Note Name.md".data)])] ("Note Name".data)).2.1
    _ (by decide)

/-- C2: Wikilink matching is case-sensitive, exact and filename-only: the
lookup succeeds only on a bucket keyed by a string identical
character-for-character to the trimmed target, and resolving "note"
against an index whose only bucket is keyed "Note" yields Missing. -/
theorem resolve_case_sensitive_exact (index : NoteIndex) (target : Str) :
    ((∀ e ∈ index, e.1 ≠ trimChars target) →
      resolve target index = ResolutionVerdict.Missing)
    ∧ (resolve target index ≠ ResolutionVerdict.Missing →
      ∃ e ∈ index, e.1 = trimChars target)
    ∧ resolve ("note".data) [(("Note".data), [("Note.md".data)])] =
      ResolutionVerdict.Missing := by
  refine ⟨?_, ?_, by decide⟩
  · intro h
    unfold resolve
    rw [lookupBucket_eq_nil h]
  · intro h
    by_contra hall
    push_neg at hall
    refine h ?_
    unfold resolve
    rw [lookupBucket_eq_nil hall]

/-- Witness for C2: the case-mismatched target "note" has no identical
key in the index keyed "Note", so it resolves to Missing. -/
theorem resolve_case_sensitive_exact_witness :
    resolve ("note".data) [(("Note".data), [("Note.md".data)])] =
      ResolutionVerdict.Missing :=
  (resolve_case_sensitive_exact [(("Note".data), [("Note.md".data)])] ("note".data)).1
    (by decide)

/-- C5: a target matched by two or more paths yields Ambiguous carrying
the bucket unchanged, in index insertion order, and the disambiguation
modal's initial selection is the first path of that list (Scenario B
included concretely). -/
theorem ambiguous_preserves_order_and_default (index : NoteIndex) (target : Str)
    (ps : List Str) (h : lookupBucket index (trimChars target) = ps) (h2 : 2 ≤ ps.length) :
    resolve target index = ResolutionVerdict.Ambiguous ps
    ∧ (∃ p rest, ps = p :: rest ∧ initialSelected ps = some p)
    ∧ resolve ("ideas".data) [(("ideas".data), [("a/ideas.md".data), ("b/ideas.md".data)])] =
      ResolutionVerdict.Ambiguous [("a/ideas.md".data), ("b/ideas.md".data)] := by
  refine ⟨(resolve_classifies_by_bucket_size index target).2.2.1 ps h h2, ?_, by decide⟩
  match ps, h2 with
  | p1 :: rest, _ => exact ⟨p1, rest, rfl, rfl⟩

/-- Witness for C5 at Scenario B: resolving "ideas" against its two-path
bucket yields Ambiguous with the paths in scan order. -/
theorem ambiguous_preserves_order_and_default_witness :
    resolve ("ideas".data) [(("ideas".data), [("a/ideas.md".data), ("b/ideas.md".data)])] =
      ResolutionVerdict.Ambiguous [("a/ideas.md".data), ("b/ideas.md".data)] :=
  (ambiguous_preserves_order_and_default
      [(("ideas".data), [("a/ideas.md".data), ("b/ideas.md".data)])] ("ideas".data)
      [("a/ideas.md".data), ("b/ideas.md".data)] (by decide) (by decide)).1

/-- C8: resolution is deterministic and has no hidden inputs: the verdict
is a function of the trimmed target and its bucket alone, and the whole
rewrite output is a function of the body and the bucket mapping alone. -/
theorem resolution_deterministic (t1 t2 : Str) (i1 i2 : NoteIndex) (body : Str) :
    (trimChars t1 = trimChars t2 →
      lookupBucket i1 (trimChars t1) = lookupBucket i2 (trimChars t2) →
      resolve t1 i1 = resolve t2 i2)
    ∧ ((∀ k, lookupBucket i1 k = lookupBucket i2 k) →
      rewriteWikilinks body i1 = rewriteWikilinks body i2) := by
  constructor
  · intro _ hb
    unfold resolve
    rw [hb]
  · intro hk
    have hrepl : wikilinkRepl i1 = wikilinkRepl i2 := by
      funext t a
      unfold wikilinkRepl
      simp only [hk]
    unfold rewriteWikilinks
    rw [hrepl]

/-- Witness for C8: two spellings of the same trimmed target against the
same index resolve identically. -/
theorem resolution_deterministic_witness :
    resolve (" Note".data) [(("Note".data), [("n.md".data)])] =
      resolve ("Note  ".data) [(("Note".data), [("n.md".data)])] :=
  (resolution_deterministic (" Note".data) ("Note  ".data)
      [(("Note".data), [("n.md".data)])] [(("Note".data), [("n.md".data)])] []).1
    (by decide) (by decide)

/-! ### Claims on the rewrite boundary -/

/-- C6: a body containing no recognizable wikilink token is returned
unchanged by the wikilink rewrite; any prefix free of `[` — hence free of
token spans — is copied untouched; and in general every body decomposes
into literal segments and recognized (well-formed) token spans whose
concatenation is exactly the body, such that the rewrite output is the
same concatenation with every literal segment untouched byte-for-byte
and exactly the token spans replaced. -/
theorem rewrite_roundtrip_untouched (index : NoteIndex) (body pre : Str)
    (h1 : ¬ containsToken body) (h2 : ∀ c ∈ pre, c ≠ '[') :
    rewriteWikilinks body index = body
    ∧ rewriteWikilinks (pre ++ body) index = pre ++ rewriteWikilinks body index
    ∧ ∀ b : Str, ∃ chunks : List Chunk,
        (∀ ch ∈ chunks, chunkWf ch)
        ∧ b = (chunks.map chunkText).flatten
        ∧ rewriteWikilinks b index = (chunks.map (chunkOut (wikilinkRepl index))).flatten := by
  refine ⟨replaceTokens_id (no_suffix_match h1), replaceTokens_append_no_open h2, ?_⟩
  intro b
  exact replaceTokens_chunks (wikilinkRepl index) b.length b le_rfl

/-- Witness for C6: a wikilink-free body passes through the rewrite
unchanged. -/
theorem rewrite_roundtrip_untouched_witness :
    rewriteWikilinks ("see also ] | [ nothing here".data) [] =
      ("see also ] | [ nothing here".data) :=
  (rewrite_roundtrip_untouched [] ("see also ] | [ nothing here".data) ("x ".data)
    (not_containsToken_of_hasToken (by decide)) (by decide)).1

/-- A space character is a legal target character. -/
theorem isTargetChar_of_isJsSpace {c : Char} (h : isJsSpace c = true) :
    isTargetChar c = true := by
  unfold isTargetChar
  simp only [Bool.and_eq_true, Bool.not_eq_true', decide_eq_false_iff_not]
  constructor
  · intro hc
    subst hc
    exact absurd h (by decide)
  · intro hc
    subst hc
    exact absurd h (by decide)

/-- Trimming an all-whitespace string yields the empty string. -/
theorem trimChars_all_space {ws : Str} (h : ∀ c ∈ ws, isJsSpace c = true) :
    trimChars ws = [] := by
  unfold trimChars
  rw [List.dropWhile_eq_nil_iff.2 (fun x hx => h x hx)]
  rfl

/-- Rewriting a body that consists of exactly one well-formed token
applies the replacement callback to its captures. -/
theorem rewrite_single_token (index : NoteIndex) (t : Str) (a : Option Str)
    (hwf : wfToken t a) :
    rewriteWikilinks (tokenChars t a) index = wikilinkRepl index t a := by
  have h0 := tryMatch_token t a [] hwf
  rw [List.append_nil] at h0
  unfold rewriteWikilinks
  simp only [tokenChars] at h0 ⊢
  rw [replaceTokens_match h0]
  simp [replaceTokens, replaceTokensFuel]

/-- C3 counterexample: the bracket sequence `[[   ]]`, whose target is
empty after trimming, does not pass through as literal text — the rewrite
replaces it with a missing-wikilink span (with empty display text). -/
theorem empty_target_passthrough_cex :
    rewriteWikilinks ("[[   ]]".data) [] ≠ ("[[   ]]".data)
    ∧ rewriteWikilinks ("[[   ]]".data) [] =
      ("<span class=\"wikilink-missing\"></span>".data) := by
  constructor
  · decide
  · decide

/-- C3 amended: a bracket sequence whose target is whitespace-only does
match the token grammar (whitespace is a legal target character); its
target trims to the empty string, whose lookup fails, so the sequence is
replaced by a missing-wikilink span with empty display text.  Only
sequences failing the bracket grammar itself, such as `[[]]`, pass
through as literal text. -/
theorem empty_target_token_missing_span (index : NoteIndex) (ws : Str) (hne : ws ≠ [])
    (hsp : ∀ c ∈ ws, isJsSpace c = true) (hidx : lookupBucket index [] = []) :
    rewriteWikilinks ('[' :: '[' :: (ws ++ [']', ']'])) index =
      ("<span class=\"wikilink-missing\"></span>".data)
    ∧ rewriteWikilinks ("[[]]".data) index = ("[[]]".data) := by
  constructor
  · have hbody : '[' :: '[' :: (ws ++ [']', ']']) = tokenChars ws none := by
      simp [tokenChars]
    rw [hbody, rewrite_single_token index ws none
      ⟨hne, fun c hc => isTargetChar_of_isJsSpace (hsp c hc), trivial⟩]
    simp only [wikilinkRepl, Option.getD_none, trimChars_all_space hsp, hidx]
    decide
  · exact replaceTokens_id (no_suffix_match (not_containsToken_of_hasToken (by decide)))

/-- Witness for the amended C3: a single-space target becomes a
missing-wikilink span with empty display text. -/
theorem empty_target_token_missing_span_witness :
    rewriteWikilinks ('[' :: '[' :: ((" ".data) ++ [']', ']'])) [] =
      ("<span class=\"wikilink-missing\"></span>".data) :=
  (empty_target_token_missing_span [] (" ".data) (by decide) (by decide) (by decide)).1

/-- C4 counterexample: for the token `[[Note| ]]`, whose alias is present
but empty after trimming, the rewrite does not fall back to the trimmed
target "Note" as display text — it renders the empty trimmed alias. -/
theorem display_alias_rule_cex :
    rewriteWikilinks ("[[Note| ]]".data) [] ≠
      ("<span class=\"wikilink-missing\">Note</span>".data)
    ∧ rewriteWikilinks ("[[Note| ]]".data) [] =
      ("<span class=\"wikilink-missing\"></span>".data) := by
  constructor
  · decide
  · decide

/-- C4 amended: the display text is the trimmed alias whenever an alias is
present — even when it trims to the empty string — and otherwise the
trimmed target; this choice is the same for the Missing, Resolved and
Ambiguous verdicts, and every token renders its computed display text. -/
theorem display_text_rule (index : NoteIndex) (t : Str) (a : Option Str)
    (hwf : wfToken t a) :
    (lookupBucket index (trimChars t) = [] →
      rewriteWikilinks (tokenChars t a) index =
        ("<span class=\"wikilink-missing\">".data) ++
          escapeHtml (trimChars (a.getD t)) ++ ("</span>".data))
    ∧ (∀ p, lookupBucket index (trimChars t) = [p] →
      rewriteWikilinks (tokenChars t a) index =
        ("[".data) ++ trimChars (a.getD t) ++ ("](/notes/".data) ++
          encodePathSegments p ++ (")".data))
    ∧ (∀ ps, lookupBucket index (trimChars t) = ps → 2 ≤ ps.length →
      rewriteWikilinks (tokenChars t a) index =
        ("<span class=\"wikilink ambiguous\" data-target=\"".data) ++
          escapeHtml (trimChars t) ++ ("\" data-paths=\"".data) ++
          joinChar ',' (ps.map encodePathSegments) ++ ("\">".data) ++
          escapeHtml (trimChars (a.getD t)) ++ ("</span>".data)) := by
  rw [rewrite_single_token index t a hwf]
  refine ⟨?_, ?_, ?_⟩
  · intro h
    simp only [wikilinkRepl, h]
  · intro p h
    simp only [wikilinkRepl, h]
  · intro ps h h2
    simp only [wikilinkRepl, h]
    match ps, h2 with
    | p1 :: p2 :: rest, _ => rfl

/-- Witness for the amended C4: the token `[[Note| ]]` renders the empty
trimmed alias as display text in its missing-wikilink span. -/
theorem display_text_rule_witness :
    rewriteWikilinks (tokenChars ("Note".data) (some (" ".data))) [] =
      ("<span class=\"wikilink-missing\">".data) ++
        escapeHtml (trimChars ((some (" ".data)).getD ("Note".data))) ++ ("</span>".data) :=
  (display_text_rule [] ("Note".data) (some (" ".data)) (by constructor <;> decide)).1
    (by decide)

/-! ### Percent-encoding and the data-paths attribute -/

/-- Unicode scalar values are below `0x110000`. -/
theorem char_toNat_lt (c : Char) : c.toNat < 1114112 := by
  rcases c.valid with h | ⟨-, h⟩
  · exact Nat.lt_trans h (by norm_num)
  · exact h

/-- Every UTF-8 byte is below 256. -/
theorem utf8Bytes_lt (c : Char) : ∀ b ∈ utf8Bytes c, b < 256 := by
  intro b hb
  have hc := char_toNat_lt c
  simp only [utf8Bytes] at hb
  split_ifs at hb with h1 h2 h3
  · simp only [List.mem_singleton] at hb
    omega
  · simp only [List.mem_cons, List.not_mem_nil, or_false] at hb
    rcases hb with rfl | rfl <;> omega
  · simp only [List.mem_cons, List.not_mem_nil, or_false] at hb
    rcases hb with rfl | rfl | rfl <;> omega
  · simp only [List.mem_cons, List.not_mem_nil, or_false] at hb
    rcases hb with rfl | rfl | rfl | rfl <;> omega

/-- No hexadecimal digit is a comma. -/
theorem hexDigit_ne_comma : ∀ n, n < 16 → hexDigit n ≠ ',' := by decide

/-- The `encodeURIComponent` output never contains a comma: a comma is not
unreserved, and percent-escapes consist of `%` and hex digits only. -/
theorem comma_not_mem_encodeURIComponent (s : Str) : (',' : Char) ∉ encodeURIComponent s := by
  intro hmem
  unfold encodeURIComponent at hmem
  rw [List.mem_flatMap] at hmem
  obtain ⟨c, -, hc⟩ := hmem
  by_cases hu : isUnreservedURI c = true
  · rw [if_pos hu] at hc
    simp only [List.mem_singleton] at hc
    subst hc
    exact absurd hu (by decide)
  · rw [if_neg hu] at hc
    rw [List.mem_flatMap] at hc
    obtain ⟨b, hb, hcb⟩ := hc
    have hblt := utf8Bytes_lt c b hb
    unfold percentByte at hcb
    simp only [List.mem_cons, List.not_mem_nil, or_false] at hcb
    rcases hcb with h | h | h
    · exact absurd h (by decide)
    · exact hexDigit_ne_comma (b / 16) (by omega) h.symm
    · exact hexDigit_ne_comma (b % 16) (by omega) h.symm

/-- Membership in a joined list comes from the separator or a member. -/
theorem mem_joinChar {sep : Char} :
    ∀ {xs : List Str} {c : Char}, c ∈ joinChar sep xs → c = sep ∨ ∃ x ∈ xs, c ∈ x
  | [], c, h => by simp [joinChar] at h
  | [x], c, h => Or.inr ⟨x, by simp, by simpa [joinChar] using h⟩
  | x :: y :: xs, c, h => by
    rw [joinChar, List.mem_append] at h
    rcases h with h | h
    · exact Or.inr ⟨x, by simp, h⟩
    · rcases List.mem_cons.1 h with rfl | h
      · exact Or.inl rfl
      · rcases mem_joinChar h with h | ⟨z, hz, hcz⟩
        · exact Or.inl h
        · exact Or.inr ⟨z, by simp [List.mem_cons.1 hz], hcz⟩

/-- The `encodePathSegments` output never contains a comma. -/
theorem comma_not_mem_encodePathSegments (p : Str) :
    (',' : Char) ∉ encodePathSegments p := by
  intro h
  rcases mem_joinChar h with h | ⟨x, hx, hcx⟩
  · exact absurd h (by decide)
  · rw [List.mem_map] at hx
    obtain ⟨seg, -, rfl⟩ := hx
    exact comma_not_mem_encodeURIComponent seg hcx

/-- A split always produces at least one field. -/
theorem splitOnChar_ne_nil (sep : Char) (l : Str) : splitOnChar sep l ≠ [] := by
  cases l with
  | nil => simp [splitOnChar]
  | cons c rest =>
    rcases h : splitOnChar sep rest with _ | ⟨s, ss⟩
    · simp [splitOnChar, h]
    · unfold splitOnChar
      rw [h]
      by_cases hc : c = sep <;> simp [hc]

/-- Splitting a separator-free string yields that one field. -/
theorem splitOnChar_no_sep {sep : Char} {l : Str} (h : sep ∉ l) :
    splitOnChar sep l = [l] := by
  induction l with
  | nil => rfl
  | cons c rest ih =>
    have hc : ¬ c = sep := fun e => h (by simp [e])
    have ih' := ih (fun hm => h (by simp [hm]))
    unfold splitOnChar
    rw [ih']
    simp [hc]

/-- Splitting a separator-free field, a separator, then a tail yields that
field followed by the split tail. -/
theorem splitOnChar_sep_append {sep : Char} {x : Str} (hx : sep ∉ x) (t : Str) :
    splitOnChar sep (x ++ sep :: t) = x :: splitOnChar sep t := by
  induction x with
  | nil =>
    rcases h : splitOnChar sep t with _ | ⟨s, ss⟩
    · exact absurd h (splitOnChar_ne_nil sep t)
    · rw [List.nil_append, splitOnChar, h]
      simp
  | cons c x ih =>
    have hc : ¬ c = sep := fun e => hx (by simp [e])
    have ih' := ih (fun hm => hx (by simp [hm]))
    rw [List.cons_append, splitOnChar, ih']
    simp [hc]

/-- Splitting undoes joining for separator-free fields. -/
theorem split_join_roundtrip {sep : Char} :
    ∀ {xs : List Str}, xs ≠ [] → (∀ x ∈ xs, sep ∉ x) →
      splitOnChar sep (joinChar sep xs) = xs
  | [], h, _ => absurd rfl h
  | [x], _, hx => by
    rw [joinChar]
    exact splitOnChar_no_sep (hx x (by simp))
  | x :: y :: xs, _, hx => by
    rw [joinChar, splitOnChar_sep_append (hx x (by simp)),
      split_join_roundtrip (by simp) (fun z hz => hx z (by simp [List.mem_cons.1 hz]))]

/-- Joining two or more fields is never empty. -/
theorem joinChar_ne_nil_of_pair {sep : Char} {x y : Str} {xs : List Str} :
    joinChar sep (x :: y :: xs) ≠ [] := by
  rw [joinChar]
  simp

/-- C9: serializing the ambiguous match list into the data-paths
attribute — percent-encoding each path and joining with commas — and then
splitting that attribute on commas in the span click handler recovers
exactly the encoded paths in order, because percent-encoded path output
never contains a comma. -/
theorem datapaths_roundtrip (paths : List Str) (h : 2 ≤ paths.length) :
    (∀ s : Str, (',' : Char) ∉ encodePathSegments s)
    ∧ handlerPaths (joinChar ',' (paths.map encodePathSegments)) =
      paths.map encodePathSegments := by
  refine ⟨comma_not_mem_encodePathSegments, ?_⟩
  obtain ⟨p1, p2, rest, rfl⟩ : ∃ p1 p2 rest, paths = p1 :: p2 :: rest := by
    match paths, h with
    | p1 :: p2 :: rest, _ => exact ⟨p1, p2, rest, rfl⟩
  simp only [List.map_cons]
  unfold handlerPaths
  rw [if_neg joinChar_ne_nil_of_pair]
  refine split_join_roundtrip (by simp) ?_
  intro z hz
  rcases List.mem_cons.1 hz with rfl | hz
  · exact comma_not_mem_encodePathSegments p1
  · rcases List.mem_cons.1 hz with rfl | hz
    · exact comma_not_mem_encodePathSegments p2
    · rw [List.mem_map] at hz
      obtain ⟨seg, -, rfl⟩ := hz
      exact comma_not_mem_encodePathSegments seg

/-- Witness for C9: a two-path ambiguous list — one path with a space,
one with a comma — roundtrips through the data-paths attribute. -/
theorem datapaths_roundtrip_witness :
    handlerPaths (joinChar ','
        ([("a b/c.md".data), ("x,y/ideas.md".data)].map encodePathSegments)) =
      [("a b/c.md".data), ("x,y/ideas.md".data)].map encodePathSegments :=
  (datapaths_roundtrip [("a b/c.md".data), ("x,y/ideas.md".data)] (by decide)).2

/-! ### Path normalization -/

/-- Fields produced by a split never contain the separator. -/
theorem splitOnChar_not_mem_sep (sep : Char) (l : Str) :
    ∀ x ∈ splitOnChar sep l, sep ∉ x := by
  induction l with
  | nil =>
    intro x hx
    simp only [splitOnChar, List.mem_singleton] at hx
    subst hx
    simp
  | cons c rest ih =>
    intro x hx
    rcases h : splitOnChar sep rest with _ | ⟨s, ss⟩
    · exact absurd h (splitOnChar_ne_nil sep rest)
    · rw [splitOnChar, h] at hx
      by_cases hc : c = sep
      · simp only [hc, if_true, List.mem_cons] at hx
        rcases hx with rfl | rfl | hx2
        · simp
        · exact ih x (by rw [h]; simp)
        · exact ih x (by rw [h]; simp [hx2])
      · simp only [if_neg hc, List.mem_cons] at hx
        rcases hx with rfl | hx2
        · intro hm
          rcases List.mem_cons.1 hm with he | hm2
          · exact hc he.symm
          · exact ih s (by rw [h]; simp) hm2
        · exact ih x (by rw [h]; simp [hx2])

/-- Invariant of the stack loop: if the incoming stack holds only
non-empty, non-dot, non-dot-dot, slash-free segments and every incoming
part is slash-free, the resulting stack holds only such segments. -/
theorem resolveParts_good :
    ∀ (parts stack : List Str),
      (∀ s ∈ stack, s ≠ [] ∧ s ≠ ['.'] ∧ s ≠ ['.', '.'] ∧ ('/' : Char) ∉ s) →
      (∀ p ∈ parts, ('/' : Char) ∉ p) →
      ∀ s ∈ resolveParts stack parts,
        s ≠ [] ∧ s ≠ ['.'] ∧ s ≠ ['.', '.'] ∧ ('/' : Char) ∉ s
  | [], stack, hs, _ => by
    rw [resolveParts]
    exact hs
  | part :: rest, stack, hs, hp => by
    rw [resolveParts]
    split_ifs with h1 h2
    · exact resolveParts_good rest stack hs (fun p hp' => hp p (by simp [hp']))
    · exact resolveParts_good rest stack.dropLast
        (fun s hsd => hs s ((List.dropLast_sublist stack).subset hsd))
        (fun p hp' => hp p (by simp [hp']))
    · push_neg at h1
      refine resolveParts_good rest (stack ++ [part]) ?_
        (fun p hp' => hp p (by simp [hp']))
      intro s hs'
      rcases List.mem_append.1 hs' with hmem | hmem
      · exact hs s hmem
      · simp only [List.mem_singleton] at hmem
        subst hmem
        exact ⟨h1.1, h1.2, h2, hp s (by simp)⟩

/-- A join of non-empty slash-free segments never starts with a slash. -/
theorem joinChar_head_ne_slash {xs : List Str}
    (h : ∀ x ∈ xs, x ≠ [] ∧ ('/' : Char) ∉ x) :
    ∀ rest, joinChar '/' xs ≠ '/' :: rest := by
  intro rest heq
  match xs, h, heq with
  | [], _, heq => simp [joinChar] at heq
  | [x], h, heq =>
    have hx := h x (by simp)
    rw [joinChar] at heq
    exact hx.2 (heq ▸ List.mem_cons_self '/' rest)
  | x :: y :: xs, h, heq =>
    have hx := h x (by simp)
    obtain ⟨c, x', rfl⟩ : ∃ c x', x = c :: x' := by
      cases x with
      | nil => exact absurd rfl hx.1
      | cons c x' => exact ⟨c, x', rfl⟩
    rw [joinChar, List.cons_append] at heq
    obtain ⟨rfl, -⟩ := List.cons.injEq .. ▸ heq
    exact hx.2 (by simp)

/-- C10 counterexample: with base directory ".." — whose own segments
survive the filter — normalizeRelativePath returns "../x", which does
contain a ".." segment. -/
theorem normalize_path_sandboxed_cex :
    normalizeRelativePath ("..".data) ("x".data) = ("../x".data)
    ∧ ("..".data) ∈ splitOnChar '/' (normalizeRelativePath ("..".data) ("x".data)) := by
  constructor
  · decide
  · decide

/-- C10 amended: whenever the base directory's own (non-empty) segments
are neither "." nor ".." — as holds for every sandboxed note directory —
the resolved path contains no "." or ".." segment and does not start with
"/": ".." parts pop at most the accumulated stack and are discarded once
it is empty, so the result never climbs above the vault root. -/
theorem normalize_path_sandboxed (baseDir relativePath : Str)
    (hb : ∀ seg ∈ (splitOnChar '/' baseDir).filter (fun s => s ≠ []),
      seg ≠ ['.'] ∧ seg ≠ ['.', '.']) :
    (∀ seg ∈ normSegments baseDir relativePath,
      seg ≠ [] ∧ seg ≠ ['.'] ∧ seg ≠ ['.', '.'])
    ∧ ∀ rest, normalizeRelativePath baseDir relativePath ≠ '/' :: rest := by
  have hstack : ∀ s ∈ (if baseDir = [] then []
      else (splitOnChar '/' baseDir).filter (fun s => s ≠ [])),
      s ≠ [] ∧ s ≠ ['.'] ∧ s ≠ ['.', '.'] ∧ ('/' : Char) ∉ s := by
    split_ifs with h
    · simp
    · intro s hs
      have hf := List.mem_filter.1 hs
      exact ⟨by simpa using hf.2, (hb s hs).1, (hb s hs).2,
        splitOnChar_not_mem_sep '/' baseDir s hf.1⟩
  have hgood := resolveParts_good (splitOnChar '/' relativePath) _ hstack
    (fun p hp => splitOnChar_not_mem_sep '/' relativePath p hp)
  have hsegs : ∀ s ∈ normSegments baseDir relativePath,
      s ≠ [] ∧ s ≠ ['.'] ∧ s ≠ ['.', '.'] ∧ ('/' : Char) ∉ s := by
    intro s hs
    exact hgood s hs
  constructor
  · intro seg hseg
    exact ⟨(hsegs seg hseg).1, (hsegs seg hseg).2.1, (hsegs seg hseg).2.2.1⟩
  · exact joinChar_head_ne_slash
      (fun x hx => ⟨(hsegs x hx).1, (hsegs x hx).2.2.2⟩)

/-- Witness for the amended C10: a note directory with a parent-traversal
relative image path resolves to dot-free segments. -/
theorem normalize_path_sandboxed_witness :
    ("assets".data) ≠ ([] : Str) ∧ ("assets".data) ≠ ['.'] ∧ ("assets".data) ≠ ['.', '.'] :=
  (normalize_path_sandboxed ("02-projects".data) ("../assets/img.png".data) (by decide)).1
    ("assets".data) (by decide)

/-! ### Claims on the backlink query (spec-modelled backend) -/

/-- C7: the backlink query counts a wikilink token exactly when the
token's trimmed target equals the queried filename under case-sensitive
exact comparison — it takes no filename index at all, so unique
resolvability is irrelevant — and a filename targeted by no token yields
the empty list rather than an error. -/
theorem backlinks_exact_match (q : Str) (notes : List NoteRecord) :
    ((∀ n ∈ notes, ∀ tok ∈ scanTokens n.body, trimChars tok.2.2.1 ≠ q) →
      findBacklinks q notes = [])
    ∧ ∀ p, (∃ b ∈ findBacklinks q notes, b.path = p) ↔
      (∃ n ∈ notes, n.path = p ∧ ∃ tok ∈ scanTokens n.body, trimChars tok.2.2.1 = q) := by
  constructor
  · intro h
    unfold findBacklinks
    rw [List.flatMap_eq_nil_iff]
    intro n hn
    rw [List.filterMap_eq_nil_iff]
    intro tok htok
    rw [if_neg (h n hn tok htok)]
  · intro p
    constructor
    · rintro ⟨b, hb, rfl⟩
      unfold findBacklinks at hb
      rw [List.mem_flatMap] at hb
      obtain ⟨n, hn, hbn⟩ := hb
      rw [List.mem_filterMap] at hbn
      obtain ⟨tok, htok, hsome⟩ := hbn
      by_cases hq : trimChars tok.2.2.1 = q
      · rw [if_pos hq] at hsome
        obtain rfl := Option.some.inj hsome
        exact ⟨n, hn, rfl, tok, htok, hq⟩
      · rw [if_neg hq] at hsome
        exact absurd hsome (by simp)
    · rintro ⟨n, hn, rfl, tok, htok, hq⟩
      refine ⟨{ path := n.path, title := noteTitle n.path
                snippet := snippetAround n.body tok.1 tok.2.1 }, ?_, rfl⟩
      unfold findBacklinks
      rw [List.mem_flatMap]
      exact ⟨n, hn, List.mem_filterMap.2 ⟨tok, htok, by rw [if_pos hq]⟩⟩

/-- Witness for C7: a filename targeted by no token of the vault yields
the empty backlink list. -/
theorem backlinks_exact_match_witness :
    findBacklinks ("Zettel".data) [⟨("a.md".data), ("see [[X]] ok".data)⟩] = [] :=
  (backlinks_exact_match ("Zettel".data) [⟨("a.md".data), ("see [[X]] ok".data)⟩]).1
    (by decide)

end PiNotes
